import Mathlib

/-!
Verification development for the FOMO_TC_Crawler repository.

The Python sources are shallowly embedded below:
- techcrunch_crawler.py : TechCrunchCrawler.get_article_list (windowed
  pagination), TechCrunchCrawler._is_text_similar (shingle similarity),
  TechCrunchCrawler.upload_to_supabase (duplicate filter + per-record
  retry loop), TechCrunchCrawler.extract_article_content and
  process_article (enrichment), TechCrunchCrawler.crawl_articles
  (order restoration after the thread pool).
- deduplicate_database.py : DatabaseDeduplicator.find_duplicates.

External collaborators (HTTP fetching, BeautifulSoup extraction, the
datetime parser, the Supabase client) are modelled as explicit function
parameters; time is modelled as an integer number of hours since an
arbitrary epoch, so the cutoff computed by
`datetime.now(timezone.utc) - timedelta(hours=early_stop_hours)` becomes
`now - early_stop_hours`.
-/

/-- An article record as extracted from one listing-page element in
`get_article_list`.  Only the fields that the control flow inspects are
modelled: `title` and `url` (the keep condition), and the raw
`published_time` attribute string (`none` models a missing `time`
element; Python sees `''` via `article.get('published_time')` when the
attribute is absent, and both `None` and `''` are falsy, so `some ""`
and `none` behave identically).  Fields `author`, `category`,
`image_url`, `post_id`, `relative_time` and `scraped_at` are never read
by any modelled code path and are omitted. -/
structure RawArticle where
  title : String
  url : String
  published_time : Option String
deriving DecidableEq, Repr

/-- The early time filter of `get_article_list` (lines 396-417 of
techcrunch_crawler.py).  `parseTime` models the `datetime.fromisoformat`
block including timezone conversion: `some t` is the parsed UTC
timestamp, `none` models the `except` branch (parse failure).  The check
fires only when a cutoff is set and the record carries a non-empty
timestamp string; a parse failure is not old (the record is kept,
fail open). -/
def isOld (parseTime : String → Option Int) (cutoff : Option Int)
    (a : RawArticle) : Bool :=
  match cutoff, a.published_time with
  | some c, some pt =>
    if pt = "" then false
    else
      match parseTime pt with
      | some t => decide (t < c)
      | none => false
  | _, _ => false

/-- Result of processing the records of one listing page. -/
structure PageRun where
  kept : List RawArticle
  seen : List String
  early : Bool
deriving DecidableEq, Repr

/-- The inner loop of `get_article_list` over the post elements of one
page (lines 349-424): records lacking a title or url are dropped, a url
already in `seen_urls` is skipped, a record that the time filter deems
old triggers the early `return articles` (flag `early := true`, nothing
after it on the page is processed), and every other record is appended
in order. -/
def processRecords (parseTime : String → Option Int) (cutoff : Option Int) :
    List RawArticle → List String → PageRun
  | [], seen => ⟨[], seen, false⟩
  | r :: rs, seen =>
    if r.title = "" ∨ r.url = "" then
      processRecords parseTime cutoff rs seen
    else if r.url ∈ seen then
      processRecords parseTime cutoff rs seen
    else if isOld parseTime cutoff r then
      ⟨[], r.url :: seen, true⟩
    else
      let rest := processRecords parseTime cutoff rs (r.url :: seen)
      ⟨r :: rest.kept, rest.seen, rest.early⟩

/-- Result of the page loop of `get_article_list`. -/
structure ListRun where
  articles : List RawArticle
  pagesFetched : Nat
  early : Bool
  seen : List String
deriving DecidableEq, Repr

/-- The page loop of `get_article_list` (lines 332-429).  Each entry of
`fetched` is the result of `fetch_page` for one page in order: `none`
models a failed fetch (`if not html: continue`), `some pg` the records
extracted from the page.  `pagesFetched` counts the pages for which
`fetch_page` was invoked; on an early stop the function returns
immediately, so later pages are never fetched. -/
def get_article_list_go (parseTime : String → Option Int) (cutoff : Option Int) :
    List (Option (List RawArticle)) → List String → ListRun
  | [], seen => ⟨[], 0, false, seen⟩
  | none :: rest, seen =>
    let lr := get_article_list_go parseTime cutoff rest seen
    ⟨lr.articles, lr.pagesFetched + 1, lr.early, lr.seen⟩
  | some pg :: rest, seen =>
    let pr := processRecords parseTime cutoff pg seen
    if pr.early then ⟨pr.kept, 1, true, pr.seen⟩
    else
      let lr := get_article_list_go parseTime cutoff rest pr.seen
      ⟨pr.kept ++ lr.articles, lr.pagesFetched + 1, lr.early, lr.seen⟩

/-- Cutoff computation of `get_article_list` (lines 325-330): the Python
guard is `if early_stop_hours:`, so `0` (and `None`, which is equally
falsy and is modelled by `0`) disables the window and no cutoff is
computed.  Time is counted in hours, so
`datetime.now(timezone.utc) - timedelta(hours=h)` is `now - h`. -/
def mkCutoff (now : Int) (early_stop_hours : Nat) : Option Int :=
  if early_stop_hours ≠ 0 then some (now - early_stop_hours) else none

/-- `TechCrunchCrawler.get_article_list` (lines 321-431): returns the
accumulated article list together with the number of pages fetched. -/
def get_article_list (parseTime : String → Option Int) (now : Int)
    (fetched : List (Option (List RawArticle))) (early_stop_hours : Nat) :
    List RawArticle × Nat :=
  let run := get_article_list_go parseTime (mkCutoff now early_stop_hours) fetched []
  (run.articles, run.pagesFetched)

/-- Modelled from the spec ("if windowHours is unset/zero, no cutoff is
computed and window filtering is fully disabled (keep everything up to
maxPages)"): keep every extracted record that has a title and a url,
subject only to URL dedup within the run. -/
def keepAllSpec : List RawArticle → List String → List RawArticle
  | [], _ => []
  | r :: rs, seen =>
    if r.title ≠ "" ∧ r.url ≠ "" ∧ r.url ∉ seen then
      r :: keepAllSpec rs (r.url :: seen)
    else
      keepAllSpec rs seen

/-- The seen-url set after runnning the URL dedup of `keepAllSpec`. -/
def seenAfter : List RawArticle → List String → List String
  | [], seen => seen
  | r :: rs, seen =>
    if r.title ≠ "" ∧ r.url ≠ "" ∧ r.url ∉ seen then
      seenAfter rs (r.url :: seen)
    else
      seenAfter rs seen

/-- `get_char_ngrams` (nested in `_is_text_similar`, lines 75-79): the
set of overlapping length-n character substrings; a text shorter than n
yields the singleton containing the whole text. -/
def get_char_ngrams (text : List Char) (n : Nat) : Finset (List Char) :=
  if text.length < n then {text}
  else ((List.range (text.length - n + 1)).map (fun i => (text.drop i).take n)).toFinset

/-- `TechCrunchCrawler._is_text_similar` (lines 59-101; the copy in
deduplicate_database.py lines 27-61 is identical): character-shingle
Jaccard similarity thresholded to a Bool.  Texts are `List Char`
(Python strings); ratios are exact rationals. -/
def _is_text_similar (text1 text2 : List Char) (threshold : ℚ) : Bool :=
  if text1 = [] ∨ text2 = [] then false
  else if text1 = text2 then true
  else
    let len_diff : Nat := ((text1.length : Int) - (text2.length : Int)).natAbs
    let max_len : Nat := max text1.length text2.length
    if 0 < max_len ∧ (3 : ℚ) / 10 < (len_diff : ℚ) / (max_len : ℚ) then false
    else
      let ngrams1 := get_char_ngrams text1 3
      let ngrams2 := get_char_ngrams text2 3
      if ngrams1 = ∅ ∨ ngrams2 = ∅ then false
      else
        let inter := (ngrams1 ∩ ngrams2).card
        let uni := (ngrams1 ∪ ngrams2).card
        if uni = 0 then false
        else decide (threshold ≤ (inter : ℚ) / (uni : ℚ))

/-- The content-prefix normalization used for near-duplicate detection
(techcrunch_crawler.py lines 162-164 and 205-206, deduplicate_database.py
lines 97-98): first 300 characters, lowercased, stripped, whitespace
runs collapsed to single spaces via split + join. -/
def splitRuns : List Char → List Char → List (List Char)
  | [], acc => if acc = [] then [] else [acc.reverse]
  | c :: cs, acc =>
    if c.isWhitespace then
      if acc = [] then splitRuns cs []
      else acc.reverse :: splitRuns cs []
    else
      splitRuns cs (c :: acc)

/-- Python `str.strip()`: drop whitespace from both ends. -/
def stripWs (l : List Char) : List Char :=
  ((l.dropWhile Char.isWhitespace).reverse.dropWhile Char.isWhitespace).reverse

/-- `content[:300].lower().strip()` followed by `' '.join(prefix.split())`. -/
def normPrefixOf (s : String) : List Char :=
  List.intercalate [' '] (splitRuns (stripWs ((s.data.take 300).map Char.toLower)) [])

/-- A row of the persisted store as read back by
`DatabaseDeduplicator.get_all_articles`.  Fields not read by
`find_duplicates` (`published_at`, `source`) are omitted. -/
structure DBRecord where
  id : Nat
  title : String
  url : String
  content : String
deriving DecidableEq, Repr

/-- The duplicate reason recorded by `find_duplicates`: "URL相同"
(identical url) or "内容相似" (similar content prefixes). -/
inductive DupReason
  | urlSame
  | contentSimilar
deriving DecidableEq, Repr

/-- The pairwise duplicate check of
`DatabaseDeduplicator.find_duplicates` (lines 111-127): url equality
first (both urls non-empty), else content-prefix similarity (both
contents non-empty, both normalized prefixes longer than 50 characters,
similarity at threshold 0.85). -/
def find_duplicates_pair (a b : DBRecord) : Option DupReason :=
  if a.url ≠ "" ∧ b.url ≠ "" ∧ a.url = b.url then some DupReason.urlSame
  else if a.content ≠ "" ∧ b.content ≠ "" then
    if (normPrefixOf a.content).length > 50 ∧ (normPrefixOf b.content).length > 50
        ∧ _is_text_similar (normPrefixOf a.content) (normPrefixOf b.content) ((85 : ℚ) / 100) then
      some DupReason.contentSimilar
    else none
  else none

/-- The inner scan of `find_duplicates` (lines 103-135): walk the later
records, skipping those already grouped (`processed_ids`), attaching
each match to the current canonical and marking it processed. -/
def collectSimilar (a : DBRecord) :
    List DBRecord → List Nat → List (DBRecord × DupReason) × List Nat
  | [], proc => ([], proc)
  | b :: rest, proc =>
    if b.id ∈ proc then collectSimilar a rest proc
    else
      match find_duplicates_pair a b with
      | some reason =>
        let r := collectSimilar a rest (b.id :: proc)
        ((b, reason) :: r.1, r.2)
      | none => collectSimilar a rest proc

/-- The outer loop of `find_duplicates` (lines 85-139): each record not
yet processed becomes a canonical candidate; a group is emitted only
when at least one duplicate was found, and then the canonical is also
marked processed. -/
def find_duplicates_go :
    List DBRecord → List Nat → List (DBRecord × List (DBRecord × DupReason))
  | [], _ => []
  | a :: rest, proc =>
    if a.id ∈ proc then find_duplicates_go rest proc
    else
      let r := collectSimilar a rest proc
      if r.1.isEmpty then find_duplicates_go rest r.2
      else (a, r.1) :: find_duplicates_go rest (a.id :: r.2)

/-- `DatabaseDeduplicator.find_duplicates` (lines 75-142). -/
def find_duplicates (articles : List DBRecord) :
    List (DBRecord × List (DBRecord × DupReason)) :=
  find_duplicates_go articles []

/-- All records of one duplicate group: the canonical followed by the
duplicates. -/
def groupMembers (g : DBRecord × List (DBRecord × DupReason)) : List DBRecord :=
  g.1 :: g.2.map Prod.fst

/-- One record of `upload_data` in `upload_to_supabase` (lines 138-145);
the constant `source` field and the `published_at` timestamp are never
read by the duplicate filter or the insert loop and are omitted. -/
structure UploadItem where
  title : String
  url : String
  content : String
deriving DecidableEq, Repr

/-- Result of the duplicate filter of `upload_to_supabase`: the
surviving `new_articles`, the `duplicate_count`, and the three
comparison sets as they stand after the loop. -/
structure FilterResult where
  newArticles : List UploadItem
  duplicateCount : Nat
  titles : List String
  urls : List String
  prefixes : List (List Char)
deriving DecidableEq, Repr

/-- The duplicate filter of `upload_to_supabase` (lines 182-229).
Checks in order: exact title match (for a non-empty title), exact url
match, then content-prefix similarity against the collected prefixes
(only when the candidate's normalized prefix is longer than 50
characters).  An accepted candidate's prefix (when long enough) and
title (when non-empty) are added to the in-memory sets; the url set is
left untouched by the loop. -/
def filterNew (titles urls : List String) (prefixes : List (List Char)) :
    List UploadItem → FilterResult
  | [] => ⟨[], 0, titles, urls, prefixes⟩
  | a :: rest =>
    if a.title ≠ "" ∧ a.title ∈ titles then
      let r := filterNew titles urls prefixes rest
      ⟨r.newArticles, r.duplicateCount + 1, r.titles, r.urls, r.prefixes⟩
    else if a.url ∈ urls then
      let r := filterNew titles urls prefixes rest
      ⟨r.newArticles, r.duplicateCount + 1, r.titles, r.urls, r.prefixes⟩
    else if a.content ≠ "" ∧ (normPrefixOf a.content).length > 50
        ∧ prefixes.any (fun q => _is_text_similar (normPrefixOf a.content) q ((85 : ℚ) / 100)) then
      let r := filterNew titles urls prefixes rest
      ⟨r.newArticles, r.duplicateCount + 1, r.titles, r.urls, r.prefixes⟩
    else
      let prefixes2 :=
        if a.content ≠ "" ∧ (normPrefixOf a.content).length > 50 then
          normPrefixOf a.content :: prefixes
        else prefixes
      let titles2 := if a.title ≠ "" then a.title :: titles else titles
      let r := filterNew titles2 urls prefixes2 rest
      ⟨a :: r.newArticles, r.duplicateCount, r.titles, r.urls, r.prefixes⟩

/-- The error classes distinguished by the `except` branch of the insert
loop (lines 267-292): duplicate-key, network/timeout, and anything
else.  All three classes drive the same control flow (retry while
`retry_count < max_retries`); they differ only in logging and sleep
duration, which are not modelled. -/
inductive WriteError
  | conflict
  | transient
  | other
deriving DecidableEq, Repr

/-- Which store operation attempt number `retry_count` performs (lines
252-260): a plain `insert` on the first attempt, an `upsert` with
`on_conflict='title'` on every retry. -/
inductive AttemptKind
  | insert
  | upsert
deriving DecidableEq, Repr

/-- The per-record retry loop of `upload_to_supabase` (lines 245-292)
for one item: `while retry_count < max_retries and not uploaded` with
`max_retries = 3`.  `oracle k` is the store's response to attempt number
`k` (`none` = success, `some e` = the raised error's class); `remaining`
is `max_retries - retry_count`.  Returns the list of performed attempts
with their outcomes, in order. -/
def attemptsFrom (oracle : Nat → Option WriteError) :
    Nat → Nat → List (AttemptKind × Option WriteError)
  | _, 0 => []
  | k, remaining + 1 =>
    let kind := if k = 0 then AttemptKind.insert else AttemptKind.upsert
    match oracle k with
    | none => [(kind, none)]
    | some e => (kind, some e) :: attemptsFrom oracle (k + 1) remaining

/-- The full attempt trace for one item, starting at `retry_count = 0`
with `max_retries = 3`. -/
def attemptList (oracle : Nat → Option WriteError) :
    List (AttemptKind × Option WriteError) :=
  attemptsFrom oracle 0 3

/-- Whether the retry loop ended with `uploaded = True`. -/
def uploadedOf (tr : List (AttemptKind × Option WriteError)) : Bool :=
  tr.any (fun p => p.2.isNone)

/-- The insert loop over `new_articles` (lines 241-299): every item is
attempted (a failed item never aborts the batch), producing the
`successful_uploads` and `failed_uploads` counters.  `oracle i k` is the
store's response to attempt `k` for the item at position `i`. -/
def uploadAll (oracle : Nat → Nat → Option WriteError) :
    Nat → List UploadItem → Nat × Nat
  | _, [] => (0, 0)
  | i, _ :: rest =>
    let ok := uploadedOf (attemptList (oracle i))
    let r := uploadAll oracle (i + 1) rest
    (if ok then r.1 + 1 else r.1, if ok then r.2 else r.2 + 1)

/-- `TechCrunchCrawler.upload_to_supabase` (lines 103-306) with a live
client and successful store reads: returns the overall Bool result
together with the `successful_uploads` and `failed_uploads` counters.
`titles`, `urls` and `prefixes` are the comparison state loaded from
the store (lines 150-180). -/
def upload_to_supabase (titles urls : List String) (prefixes : List (List Char))
    (oracle : Nat → Nat → Option WriteError) (articles : List UploadItem) :
    Bool × Nat × Nat :=
  if articles = [] then (false, 0, 0)
  else
    let wc := articles.filter (fun a => a.content ≠ "")
    if wc = [] then (false, 0, 0)
    else
      let fr := filterNew titles urls prefixes wc
      if fr.newArticles = [] then (true, 0, 0)
      else
        let counts := uploadAll oracle 0 fr.newArticles
        (decide (0 < counts.1), counts.1, counts.2)

/-- `TechCrunchCrawler.extract_article_content` (lines 433-465).  The
collaborators are abstracted: `page` is `none` when `fetch_page`
returned no HTML, and otherwise carries, in selector priority order,
the cleaned text of each content region that matched a selector.  The
code returns the first candidate longer than 100 characters and the
empty string when there is none. -/
def extract_article_content (page : Option (List String)) : String :=
  match page with
  | none => ""
  | some candidates =>
    match candidates.find? (fun c => decide (100 < c.length)) with
    | some c => c
    | none => ""

/-- An article after content enrichment (`process_article`, lines
492-497): the stub fields plus `content`, `content_length` and
`has_content`. -/
structure EnrichedArticle where
  title : String
  url : String
  published_time : Option String
  content : String
  content_length : Nat
  has_content : Bool
deriving DecidableEq, Repr

/-- `process_article` (nested in `crawl_articles`, lines 492-497):
fetch and extract the article body for one stub; `pageOf` maps a url to
the extraction candidates of its page (`none` = fetch failure). -/
def process_article (pageOf : String → Option (List String)) (a : RawArticle) :
    EnrichedArticle :=
  let content := extract_article_content (pageOf a.url)
  ⟨a.title, a.url, a.published_time, content, content.length,
    decide (0 < content.length)⟩

/-- The sort key of the order-restoration step of `crawl_articles`
(line 514): `articles.index(next(a for a in articles if a['url'] ==
x['url']))`, the index of the first article whose url equals the
result's url. -/
def keyOf (arts : List EnrichedArticle) (x : EnrichedArticle) : Nat :=
  arts.findIdx (fun a => a.url == x.url)

/-- The order-restoration step of `crawl_articles` (line 514):
`enhanced_articles.sort(key=...)`.  Python's `list.sort` is a stable
comparison sort; it is modelled by a stable insertion sort on the same
key. -/
def restoreOrder (arts completed : List EnrichedArticle) : List EnrichedArticle :=
  completed.insertionSort (fun x y => keyOf arts x ≤ keyOf arts y)

/-- A store response sequence for one item: the plain insert and the
first upsert both raise duplicate-key errors, the second upsert
succeeds. -/
def c4ConflictOracle : Nat → Option WriteError :=
  fun k => if k ≤ 1 then some WriteError.conflict else none

/-- A concrete store snapshot: records 1 and 3 share a url, record 2 is
distinct. -/
def c7Articles : List DBRecord :=
  [⟨1, "a", "u1", "c1"⟩, ⟨2, "b", "u2", "c2"⟩, ⟨3, "c", "u1", "c3"⟩]

/-- C5 counterexample: the claim asserts self-similarity for every
string including the empty string, but `_is_text_similar` returns
`False` for the empty string at the threshold 0.85 (which is a valid
threshold, at most 1.0), because the emptiness guard
`if not text1 or not text2` fires before the equality bypass. -/
theorem similar_empty_self_cex :
    (85 : ℚ) / 100 ≤ 1 ∧ _is_text_similar [] [] ((85 : ℚ) / 100) = false := by
  constructor
  · norm_num
  · rfl

/-- C5 (amended): for every non-empty string s and every threshold,
`_is_text_similar s s threshold` is true, the equal-strings bypass
returning before any shingle computation; the empty string is rejected
by the emptiness guard instead. -/
theorem similar_self_of_nonempty (s : List Char) (t : ℚ) (hs : s ≠ []) :
    _is_text_similar s s t = true := by
  unfold _is_text_similar
  simp [hs]

/-- C5 witness: the one-character string is self-similar at 0.85. -/
theorem similar_self_of_nonempty_witness :
    (['a'] : List Char) ≠ [] ∧ _is_text_similar ['a'] ['a'] ((85 : ℚ) / 100) = true :=
  ⟨by decide, similar_self_of_nonempty ['a'] ((85 : ℚ) / 100) (by decide)⟩

/-- C8: an enriched article's `has_content` flag is true exactly when
its content is longer than 100 characters, because
`extract_article_content` returns either the empty string or a string
of more than 100 characters, never a non-empty string of at most 100
characters. -/
theorem has_content_iff_long :
    ∀ (pageOf : String → Option (List String)) (a : RawArticle),
      ((process_article pageOf a).has_content = true
        ↔ 100 < (process_article pageOf a).content.length)
      ∧ ∀ page, extract_article_content page = ""
          ∨ 100 < (extract_article_content page).length := by
  have hx : ∀ page, extract_article_content page = ""
      ∨ 100 < (extract_article_content page).length := by
    intro page
    cases page with
    | none => exact Or.inl rfl
    | some cands =>
      cases hf : cands.find? (fun c => decide (100 < c.length)) with
      | none =>
        left
        simp [extract_article_content, hf]
      | some c =>
        right
        have h := List.find?_some hf
        simp only [decide_eq_true_eq] at h
        simpa [extract_article_content, hf] using h
  intro pageOf a
  refine ⟨?_, hx⟩
  show (decide (0 < (extract_article_content (pageOf a.url)).length) = true)
      ↔ 100 < (extract_article_content (pageOf a.url)).length
  rcases hx (pageOf a.url) with h | h
  · rw [h]; decide
  · simp only [decide_eq_true_eq]
    omega

/-- C10: the duplicate filter of `upload_to_supabase` never extends the
existing-URLs set, so a batch containing two items with the same url
(absent from the store) but distinct titles and short normalized
content prefixes passes both items through to insertion (the second
item's title and prefix checks compare against the first item's
freshly added title, but no url comparison can fire). -/
theorem upload_filter_url_blind :
    (∀ (titles urls : List String) (prefixes : List (List Char)) (items : List UploadItem),
        (filterNew titles urls prefixes items).urls = urls)
    ∧ (filterNew [] [] [] [⟨"tA", "u", "a"⟩, ⟨"tB", "u", "b"⟩]).newArticles
        = [⟨"tA", "u", "a"⟩, ⟨"tB", "u", "b"⟩]
    ∧ (filterNew [] [] [] [⟨"tA", "u", "a"⟩, ⟨"tB", "u", "b"⟩]).titles = ["tB", "tA"] := by
  refine ⟨?_, by decide, by decide⟩
  intro titles urls prefixes items
  induction items generalizing titles prefixes with
  | nil => rfl
  | cons a rest ih =>
    simp only [filterNew]
    split
    · simp [ih]
    · split
      · simp [ih]
      · split
        · simp [ih]
        · simp [ih]

/-- C2 counterexample: re-uploading a batch whose only item carries a
title already in the store uploads nothing, yet `upload_to_supabase`
reports overall success (the `if not new_articles: return True` branch),
contradicting "success if and only if at least one record uploaded". -/
theorem upload_success_without_upload_cex :
    (upload_to_supabase ["t1"] [] [] (fun _ _ => none) [⟨"t1", "u1", "c1"⟩]).1 = true
    ∧ (upload_to_supabase ["t1"] [] [] (fun _ _ => none) [⟨"t1", "u1", "c1"⟩]).2.1 = 0 := by
  decide

/-- C4 counterexample: when the plain insert raises a duplicate-key
error and the first upsert raises one as well, the item is not skipped:
a second upsert is attempted (and here succeeds), because the loop
allows `max_retries = 3` attempts for every error class. -/
theorem conflict_retry_cex :
    attemptList c4ConflictOracle
      = [(AttemptKind.insert, some WriteError.conflict),
         (AttemptKind.upsert, some WriteError.conflict),
         (AttemptKind.upsert, none)]
    ∧ uploadedOf (attemptList c4ConflictOracle) = true := by
  decide

/-- C4 (amended): when the plain insert fails with a duplicate-key
error, every subsequent attempt is an upsert keyed on title, and up to
two such retries are made (a 3-attempt budget in total); only if all
attempts fail is the item counted as failed, and the batch always
processes every item (successes plus failures sum to the batch size,
nothing raises out of the loop). -/
theorem conflict_retry_amended (oracle : Nat → Option WriteError)
    (bigOracle : Nat → Nat → Option WriteError) (i : Nat) (items : List UploadItem)
    (h0 : oracle 0 = some WriteError.conflict) :
    attemptList oracle
      = (AttemptKind.insert, some WriteError.conflict) :: attemptsFrom oracle 1 2
    ∧ (attemptsFrom oracle 1 2).all (fun p => p.1 == AttemptKind.upsert) = true
    ∧ (attemptsFrom oracle 1 2).length ≤ 2
    ∧ ((oracle 1).isSome = true → (oracle 2).isSome = true →
        uploadedOf (attemptList oracle) = false)
    ∧ (uploadAll bigOracle i items).1 + (uploadAll bigOracle i items).2 = items.length := by
  refine ⟨?_, ?_, ?_, ?_, ?_⟩
  · simp [attemptList, attemptsFrom, h0]
  · rcases h1 : oracle 1 with _ | e1 <;> rcases h2 : oracle 2 with _ | e2 <;>
      simp [attemptsFrom, h1, h2]
  · rcases h1 : oracle 1 with _ | e1 <;> rcases h2 : oracle 2 with _ | e2 <;>
      simp [attemptsFrom, h1, h2]
  · intro hs1 hs2
    obtain ⟨e1, he1⟩ := Option.isSome_iff_exists.mp hs1
    obtain ⟨e2, he2⟩ := Option.isSome_iff_exists.mp hs2
    simp [uploadedOf, attemptList, attemptsFrom, h0, he1, he2]
  · induction items generalizing i with
    | nil => rfl
    | cons a rest ih =>
      have hr := ih (i + 1)
      by_cases h : uploadedOf (attemptList (bigOracle i)) = true <;>
        simp [uploadAll, h, List.length_cons] <;> omega

/-- C4 witness: the amended statement at a concrete oracle whose insert
raises a conflict, and a concrete one-item batch. -/
theorem conflict_retry_amended_witness :
    c4ConflictOracle 0 = some WriteError.conflict
    ∧ attemptList c4ConflictOracle
        = (AttemptKind.insert, some WriteError.conflict) :: attemptsFrom c4ConflictOracle 1 2
    ∧ (uploadAll (fun _ _ => none) 0 [⟨"t", "u", "c"⟩]).1
        + (uploadAll (fun _ _ => none) 0 [⟨"t", "u", "c"⟩]).2
        = ([⟨"t", "u", "c"⟩] : List UploadItem).length := by
  have h := conflict_retry_amended c4ConflictOracle (fun _ _ => none) 0
    [⟨"t", "u", "c"⟩] (by decide)
  exact ⟨by decide, h.1, h.2.2.2.2⟩

/-- Every item whose title is already known is rejected by the
duplicate filter, with the comparison sets left unchanged. -/
theorem filterNew_all_title_dup (titles urls : List String)
    (prefixes : List (List Char)) (l : List UploadItem) :
    (∀ a ∈ l, a.title ≠ "" ∧ a.title ∈ titles) →
    filterNew titles urls prefixes l = ⟨[], l.length, titles, urls, prefixes⟩ := by
  induction l with
  | nil => intro _; rfl
  | cons a rest ih =>
    intro h
    have ha := h a (List.mem_cons_self a rest)
    have hrest := ih (fun b hb => h b (List.mem_cons_of_mem a hb))
    simp [filterNew, ha, hrest]

/-- C2 (amended): with a working client, a non-empty batch and at least
one content-bearing item, `upload_to_supabase` reports overall success
if and only if either every candidate was filtered out as a duplicate
before insertion (the re-upload case: zero uploaded yet success) or at
least one record was uploaded; and when every content-bearing item's
title is already in the store, the result is exactly
`(True, uploaded = 0, failed = 0)` with every item counted as a
filter-stage duplicate. -/
theorem upload_success_characterization (titles urls : List String)
    (prefixes : List (List Char)) (oracle : Nat → Nat → Option WriteError)
    (articles : List UploadItem) (h1 : articles ≠ [])
    (h2 : articles.filter (fun a => a.content ≠ "") ≠ []) :
    ((upload_to_supabase titles urls prefixes oracle articles).1 = true
      ↔ ((filterNew titles urls prefixes
            (articles.filter (fun a => a.content ≠ ""))).newArticles = []
          ∨ 0 < (upload_to_supabase titles urls prefixes oracle articles).2.1))
    ∧ ((∀ a ∈ articles.filter (fun a => a.content ≠ ""),
          a.title ≠ "" ∧ a.title ∈ titles) →
        upload_to_supabase titles urls prefixes oracle articles = (true, 0, 0)
        ∧ (filterNew titles urls prefixes
            (articles.filter (fun a => a.content ≠ ""))).duplicateCount
          = (articles.filter (fun a => a.content ≠ "")).length) := by
  constructor
  · unfold upload_to_supabase
    simp only [ne_eq, decide_not] at h2 ⊢
    rw [if_neg h1, if_neg h2]
    by_cases hn : (filterNew titles urls prefixes
        (articles.filter (fun a => !decide (a.content = "")))).newArticles = []
    · rw [if_pos hn]
      simp [hn]
    · rw [if_neg hn]
      simp [hn]
  · intro hall
    have hf := filterNew_all_title_dup titles urls prefixes _ hall
    refine ⟨?_, by rw [hf]⟩
    unfold upload_to_supabase
    simp only [ne_eq, decide_not] at h2 hf ⊢
    rw [if_neg h1, if_neg h2, if_pos (by rw [hf])]

/-- C2 witness: re-uploading a one-item batch whose title is already in
the store yields uploaded = 0 with the item skipped, and overall
success True. -/
theorem upload_success_characterization_witness :
    ([⟨"t1", "u1", "c1"⟩] : List UploadItem) ≠ []
    ∧ ([⟨"t1", "u1", "c1"⟩] : List UploadItem).filter (fun a => a.content ≠ "") ≠ []
    ∧ upload_to_supabase ["t1"] [] [] (fun _ _ => none) [⟨"t1", "u1", "c1"⟩] = (true, 0, 0)
    ∧ (filterNew ["t1"] [] []
        (([⟨"t1", "u1", "c1"⟩] : List UploadItem).filter (fun a => a.content ≠ ""))).duplicateCount
      = (([⟨"t1", "u1", "c1"⟩] : List UploadItem).filter (fun a => a.content ≠ "")).length := by
  have h := upload_success_characterization ["t1"] [] [] (fun _ _ => none)
    [⟨"t1", "u1", "c1"⟩] (by decide) (by decide)
  have h2 := h.2 (by decide)
  exact ⟨by decide, by decide, h2.1, h2.2⟩

/-- C6: near-duplicate-by-content classification requires both
normalized 300-character prefixes to exceed 50 characters.  In
`find_duplicates` a pair with a short prefix on either side is never
classified as a content duplicate, and in the upload filter a candidate
with a short prefix that passes the title and url checks is always
accepted (its content is never compared), regardless of similarity. -/
theorem short_prefix_never_content_dup (a b : DBRecord)
    (titles urls : List String) (prefixes : List (List Char))
    (x : UploadItem) (rest : List UploadItem)
    (hab : (normPrefixOf a.content).length ≤ 50
        ∨ (normPrefixOf b.content).length ≤ 50)
    (hx1 : ¬(x.title ≠ "" ∧ x.title ∈ titles))
    (hx2 : x.url ∉ urls)
    (hx3 : (normPrefixOf x.content).length ≤ 50) :
    find_duplicates_pair a b ≠ some DupReason.contentSimilar
    ∧ (filterNew titles urls prefixes (x :: rest)).newArticles
        = x :: (filterNew (if x.title ≠ "" then x.title :: titles else titles)
            urls prefixes rest).newArticles := by
  constructor
  · unfold find_duplicates_pair
    split
    · simp
    · split
      · split
        · rename_i hcond
          omega
        · simp
      · simp
  · simp [filterNew, hx1, hx2]
    split
    · rename_i hcond
      exact absurd hcond.2.1 (by omega)
    · have hnp : ¬(¬x.content = "" ∧ 50 < (normPrefixOf x.content).length) := by
        rintro ⟨-, h50⟩
        omega
      rw [if_neg hnp]

/-- C6 witness: two store records with identical short contents are not
content duplicates, and a short-prefix upload candidate passes the
filter. -/
theorem short_prefix_never_content_dup_witness :
    (normPrefixOf "dup").length ≤ 50
    ∧ find_duplicates_pair ⟨1, "ta", "ua", "dup"⟩ ⟨2, "tb", "ub", "dup"⟩
        ≠ some DupReason.contentSimilar
    ∧ (filterNew [] [] [] [⟨"tx", "ux", "c"⟩]).newArticles = [⟨"tx", "ux", "c"⟩] := by
  have h := short_prefix_never_content_dup ⟨1, "ta", "ua", "dup"⟩ ⟨2, "tb", "ub", "dup"⟩
    [] [] [] ⟨"tx", "ux", "c"⟩ [] (Or.inl (by decide)) (by decide) (by decide) (by decide)
  refine ⟨by decide, h.1, ?_⟩
  rw [h.2]
  rfl

/-- With no cutoff, one page is processed exactly as the spec-level
keep-all filter describes: nothing is old, so no early stop. -/
theorem processRecords_none (parseTime : String → Option Int) :
    ∀ (l : List RawArticle) (seen : List String),
      processRecords parseTime none l seen
        = ⟨keepAllSpec l seen, seenAfter l seen, false⟩ := by
  intro l
  induction l with
  | nil => intro seen; rfl
  | cons r rs ih =>
    intro seen
    by_cases h1 : r.title = "" ∨ r.url = ""
    · have h2 : ¬(r.title ≠ "" ∧ r.url ≠ "" ∧ r.url ∉ seen) := by tauto
      simp [processRecords, keepAllSpec, seenAfter, h1, h2, ih]
    · by_cases h2 : r.url ∈ seen
      · have h3 : ¬(r.title ≠ "" ∧ r.url ≠ "" ∧ r.url ∉ seen) := by tauto
        simp [processRecords, keepAllSpec, seenAfter, h1, h2, h3, ih]
      · have h3 : r.title ≠ "" ∧ r.url ≠ "" ∧ r.url ∉ seen := by tauto
        have h4 : isOld parseTime none r = false := rfl
        simp [processRecords, keepAllSpec, seenAfter, h1, h2, h3, h4, ih]

/-- The keep-all filter distributes over page concatenation. -/
theorem keepAllSpec_append : ∀ (xs ys : List RawArticle) (seen : List String),
    keepAllSpec (xs ++ ys) seen
      = keepAllSpec xs seen ++ keepAllSpec ys (seenAfter xs seen) := by
  intro xs
  induction xs with
  | nil => intro ys seen; rfl
  | cons r rs ih =>
    intro ys seen
    by_cases h : r.title ≠ "" ∧ r.url ≠ "" ∧ r.url ∉ seen
    · simp [keepAllSpec, seenAfter, h, ih]
    · simp [keepAllSpec, seenAfter, h, ih]

/-- The seen-url set likewise threads through page concatenation. -/
theorem seenAfter_append : ∀ (xs ys : List RawArticle) (seen : List String),
    seenAfter (xs ++ ys) seen = seenAfter ys (seenAfter xs seen) := by
  intro xs
  induction xs with
  | nil => intro ys seen; rfl
  | cons r rs ih =>
    intro ys seen
    by_cases h : r.title ≠ "" ∧ r.url ≠ "" ∧ r.url ∉ seen
    · simp [seenAfter, h, ih]
    · simp [seenAfter, h, ih]

/-- With no cutoff the whole page loop reduces to the keep-all filter
over the concatenation of the successfully fetched pages, fetching
every page and never stopping early. -/
theorem get_article_list_go_none (parseTime : String → Option Int) :
    ∀ (fetched : List (Option (List RawArticle))) (seen : List String),
      get_article_list_go parseTime none fetched seen
        = ⟨keepAllSpec ((fetched.filterMap id).flatten) seen, fetched.length, false,
           seenAfter ((fetched.filterMap id).flatten) seen⟩ := by
  intro fetched
  induction fetched with
  | nil => intro seen; rfl
  | cons p rest ih =>
    intro seen
    cases p with
    | none =>
      simp [get_article_list_go, ih, List.filterMap_cons]
    | some pg =>
      simp [get_article_list_go, processRecords_none, ih, List.filterMap_cons,
        keepAllSpec_append, seenAfter_append]

/-- C9: with `early_stop_hours = 0` (the `None`/`0` falsy guard) no
cutoff is computed: `get_article_list` keeps every extracted record
subject only to URL dedup, fetches all requested pages, and never
returns early because of an old timestamp. -/
theorem window_disabled_keeps_all :
    ∀ (parseTime : String → Option Int) (now : Int)
      (fetched : List (Option (List RawArticle))),
      get_article_list parseTime now fetched 0
        = (keepAllSpec ((fetched.filterMap id).flatten) [], fetched.length)
      ∧ (get_article_list_go parseTime (mkCutoff now 0) fetched []).early = false := by
  intro parseTime now fetched
  have hc : mkCutoff now 0 = none := rfl
  unfold get_article_list
  rw [hc, get_article_list_go_none]
  exact ⟨rfl, rfl⟩

/-- Appending an old record (valid, unseen) to a page whose processing
so far neither stopped early nor saw that url makes the page processing
return exactly the records kept so far, flagging the early stop;
everything after the old record is ignored. -/
theorem processRecords_early_extend (parseTime : String → Option Int) (c : Int)
    (r : RawArticle) (hold : isOld parseTime (some c) r = true)
    (ht : r.title ≠ "") (hu : r.url ≠ "") :
    ∀ (pre : List RawArticle) (seen : List String),
      (processRecords parseTime (some c) pre seen).early = false →
      r.url ∉ (processRecords parseTime (some c) pre seen).seen →
      ∀ post, processRecords parseTime (some c) (pre ++ r :: post) seen
        = ⟨(processRecords parseTime (some c) pre seen).kept,
           r.url :: (processRecords parseTime (some c) pre seen).seen, true⟩ := by
  intro pre
  induction pre with
  | nil =>
    intro seen he hs post
    simp only [processRecords] at hs
    simp [processRecords, ht, hu, hs, hold]
  | cons a pre' ih =>
    intro seen he hs post
    by_cases h1 : a.title = "" ∨ a.url = ""
    · simp only [List.cons_append, processRecords, if_pos h1, List.append_eq] at he hs ⊢
      exact ih seen he hs post
    · by_cases h2 : a.url ∈ seen
      · simp only [List.cons_append, processRecords, if_neg h1, if_pos h2,
          List.append_eq] at he hs ⊢
        exact ih seen he hs post
      · by_cases h3 : isOld parseTime (some c) a = true
        · simp [processRecords, h1, h2, h3] at he
        · simp only [List.cons_append, processRecords, if_neg h1, if_neg h2,
            if_neg (by simp [h3] : ¬isOld parseTime (some c) a = true),
            List.append_eq] at he hs ⊢
          rw [ih (a.url :: seen) he hs post]

/-- Appending, after some cleanly processed pages, a page whose
processing stops early makes the whole page loop return immediately:
the articles are those accumulated so far plus the early page's kept
records, the page count stops at that page, and the remaining pages
are never fetched. -/
theorem get_article_list_go_early_extend (parseTime : String → Option Int)
    (co : Option Int) :
    ∀ (pages rest : List (Option (List RawArticle))) (pg : List RawArticle)
      (seen : List String),
      (get_article_list_go parseTime co pages seen).early = false →
      (processRecords parseTime co pg
        (get_article_list_go parseTime co pages seen).seen).early = true →
      get_article_list_go parseTime co (pages ++ some pg :: rest) seen
        = ⟨(get_article_list_go parseTime co pages seen).articles
            ++ (processRecords parseTime co pg
                (get_article_list_go parseTime co pages seen).seen).kept,
           pages.length + 1, true,
           (processRecords parseTime co pg
             (get_article_list_go parseTime co pages seen).seen).seen⟩ := by
  intro pages
  induction pages with
  | nil =>
    intro rest pg seen he hp
    simp only [get_article_list_go] at hp ⊢
    simp [hp]
  | cons p pages' ih =>
    intro rest pg seen he hp
    cases p with
    | none =>
      have hgo : ∀ (X : List (Option (List RawArticle))),
          get_article_list_go parseTime co (none :: X) seen
            = ⟨(get_article_list_go parseTime co X seen).articles,
               (get_article_list_go parseTime co X seen).pagesFetched + 1,
               (get_article_list_go parseTime co X seen).early,
               (get_article_list_go parseTime co X seen).seen⟩ := fun X => rfl
      rw [hgo pages'] at he hp
      dsimp only at he hp
      rw [List.cons_append, hgo (pages' ++ some pg :: rest), hgo pages',
        ih rest pg seen he hp]
      simp
    | some q =>
      have hq : (processRecords parseTime co q seen).early = false := by
        by_contra hq0
        rw [Bool.not_eq_false] at hq0
        simp [get_article_list_go, hq0] at he
      have hgo : ∀ (X : List (Option (List RawArticle))),
          get_article_list_go parseTime co (some q :: X) seen
            = ⟨(processRecords parseTime co q seen).kept
                ++ (get_article_list_go parseTime co X
                    (processRecords parseTime co q seen).seen).articles,
               (get_article_list_go parseTime co X
                 (processRecords parseTime co q seen).seen).pagesFetched + 1,
               (get_article_list_go parseTime co X
                 (processRecords parseTime co q seen).seen).early,
               (get_article_list_go parseTime co X
                 (processRecords parseTime co q seen).seen).seen⟩ := by
        intro X
        simp only [get_article_list_go]
        rw [if_neg (by simp [hq])]
      rw [hgo pages'] at he hp
      dsimp only at he hp
      rw [List.cons_append, hgo (pages' ++ some pg :: rest), hgo pages',
        ih rest pg _ he hp]
      simp [List.append_assoc]

/-- C1: with a non-zero window, when the first record that would
otherwise be kept (valid title/url, url unseen) parses to a timestamp
strictly older than the cutoff `now - hours` (computed once at start),
`get_article_list` returns immediately: the result is exactly the
articles accumulated from the cleanly processed earlier pages and the
earlier part of the current page, the old record and everything after
it are excluded, and no further page is fetched.  Moreover any valid
unseen record that is not old (timestamp at or after the cutoff, or a
missing or unparseable timestamp) is kept. -/
theorem get_article_list_early_stop (parseTime : String → Option Int) (now : Int)
    (hours : Nat) (prefixPages rest : List (Option (List RawArticle)))
    (pre post : List RawArticle) (r : RawArticle) (pt : String) (t : Int)
    (r2 : RawArticle) (rs2 : List RawArticle) (seen2 : List String)
    (hh : hours ≠ 0)
    (hpre : (get_article_list_go parseTime (mkCutoff now hours) prefixPages []).early
      = false)
    (hpage : (processRecords parseTime (mkCutoff now hours) pre
        (get_article_list_go parseTime (mkCutoff now hours) prefixPages []).seen).early
      = false)
    (ht : r.title ≠ "") (hu : r.url ≠ "")
    (hseen : r.url ∉ (processRecords parseTime (mkCutoff now hours) pre
        (get_article_list_go parseTime (mkCutoff now hours) prefixPages []).seen).seen)
    (hpt : r.published_time = some pt) (hpt2 : pt ≠ "")
    (hp : parseTime pt = some t) (hlt : t < now - hours)
    (ht2 : r2.title ≠ "") (hu2 : r2.url ≠ "") (hs2 : r2.url ∉ seen2)
    (hold2 : isOld parseTime (mkCutoff now hours) r2 = false) :
    get_article_list parseTime now (prefixPages ++ some (pre ++ r :: post) :: rest) hours
      = ((get_article_list_go parseTime (mkCutoff now hours) prefixPages []).articles
          ++ (processRecords parseTime (mkCutoff now hours) pre
              (get_article_list_go parseTime (mkCutoff now hours) prefixPages []).seen).kept,
         prefixPages.length + 1)
    ∧ processRecords parseTime (mkCutoff now hours) (r2 :: rs2) seen2
        = ⟨r2 :: (processRecords parseTime (mkCutoff now hours) rs2 (r2.url :: seen2)).kept,
           (processRecords parseTime (mkCutoff now hours) rs2 (r2.url :: seen2)).seen,
           (processRecords parseTime (mkCutoff now hours) rs2 (r2.url :: seen2)).early⟩ := by
  have hc : mkCutoff now hours = some (now - hours) := by
    simp [mkCutoff, hh]
  constructor
  · have hold : isOld parseTime (some (now - hours)) r = true := by
      simp [isOld, hpt, hpt2, hp, hlt]
    rw [hc] at hpre hpage hseen
    have hpr := processRecords_early_extend parseTime (now - hours) r hold ht hu pre
      _ hpage hseen post
    have hgo := get_article_list_go_early_extend parseTime (some (now - hours))
      prefixPages rest (pre ++ r :: post) [] hpre (by rw [hpr])
    unfold get_article_list
    rw [hc, hgo, hpr]
  · have hcond : ¬(r2.title = "" ∨ r2.url = "") := by tauto
    simp only [processRecords]
    rw [if_neg hcond, if_neg hs2,
      if_neg (by simp [hold2] : ¬isOld parseTime (mkCutoff now hours) r2 = true)]

/-- C1 witness: a three-page feed where the second record of page 2 is
old stops after page 2, returning only the records before the old one
and never fetching page 3. -/
theorem get_article_list_early_stop_witness :
    (24 : Nat) ≠ 0
    ∧ (⟨"C", "uc", some "old"⟩ : RawArticle).published_time = some "old"
    ∧ (0 : Int) < 100 - (24 : Nat)
    ∧ get_article_list
        (fun s => if s = "old" then some 0 else if s = "new" then some 90 else none)
        100
        [some [⟨"A", "ua", some "new"⟩],
         some [⟨"B", "ub", some "new"⟩, ⟨"C", "uc", some "old"⟩, ⟨"D", "ud", some "new"⟩],
         some [⟨"E", "ue", some "new"⟩]]
        24
      = ([⟨"A", "ua", some "new"⟩, ⟨"B", "ub", some "new"⟩], 2) := by
  have h := get_article_list_early_stop
    (fun s => if s = "old" then some 0 else if s = "new" then some 90 else none)
    100 24
    [some [⟨"A", "ua", some "new"⟩]]
    [some [⟨"E", "ue", some "new"⟩]]
    [⟨"B", "ub", some "new"⟩] [⟨"D", "ud", some "new"⟩]
    ⟨"C", "uc", some "old"⟩ "old" 0
    ⟨"F", "uf", some "new"⟩ [] []
    (by decide) (by decide) (by decide) (by decide) (by decide) (by decide)
    rfl (by decide) (by decide) (by decide) (by decide) (by decide) (by decide)
    (by decide)
  exact ⟨by decide, rfl, by decide, h.1.trans (by decide)⟩

/-- The inner scan of `find_duplicates` only grows `processed_ids`, and
every attached duplicate comes from the scanned suffix, was not yet
processed, and ends up processed. -/
theorem collectSimilar_spec (a : DBRecord) :
    ∀ (l : List DBRecord) (proc : List Nat),
      proc ⊆ (collectSimilar a l proc).2
      ∧ ∀ p ∈ (collectSimilar a l proc).1,
          p.1 ∈ l ∧ p.1.id ∈ (collectSimilar a l proc).2 ∧ p.1.id ∉ proc := by
  intro l
  induction l with
  | nil =>
    intro proc
    exact ⟨fun x hx => hx, by simp [collectSimilar]⟩
  | cons b rest ih =>
    intro proc
    by_cases hb : b.id ∈ proc
    · constructor
      · simp only [collectSimilar, if_pos hb]
        exact (ih proc).1
      · intro p hp
        simp only [collectSimilar, if_pos hb] at hp ⊢
        obtain ⟨h1, h2, h3⟩ := (ih proc).2 p hp
        exact ⟨List.mem_cons_of_mem b h1, h2, h3⟩
    · cases hd : find_duplicates_pair a b with
      | none =>
        constructor
        · simp only [collectSimilar, if_neg hb, hd]
          exact (ih proc).1
        · intro p hp
          simp only [collectSimilar, if_neg hb, hd] at hp ⊢
          obtain ⟨h1, h2, h3⟩ := (ih proc).2 p hp
          exact ⟨List.mem_cons_of_mem b h1, h2, h3⟩
      | some reason =>
        have hsub := (ih (b.id :: proc)).1
        constructor
        · simp only [collectSimilar, if_neg hb, hd]
          exact fun x hx => hsub (List.mem_cons_of_mem _ hx)
        · intro p hp
          simp only [collectSimilar, if_neg hb, hd] at hp ⊢
          rcases List.mem_cons.mp hp with hpe | hpm
          · subst hpe
            exact ⟨List.mem_cons_self _ _, hsub (List.mem_cons_self _ _), hb⟩
          · obtain ⟨h1, h2, h3⟩ := (ih (b.id :: proc)).2 p hpm
            exact ⟨List.mem_cons_of_mem b h1, h2,
              fun hx => h3 (List.mem_cons_of_mem _ hx)⟩

/-- Every emitted group's canonical and duplicates come from the input
suffix, were unprocessed at entry, and a group always carries at least
one duplicate. -/
theorem find_duplicates_go_mem :
    ∀ (l : List DBRecord) (proc : List Nat),
      ∀ g ∈ find_duplicates_go l proc,
        g.1 ∈ l ∧ g.1.id ∉ proc ∧ g.2 ≠ []
        ∧ ∀ p ∈ g.2, p.1 ∈ l ∧ p.1.id ∉ proc := by
  intro l
  induction l with
  | nil => intro proc g hg; simp [find_duplicates_go] at hg
  | cons a rest ih =>
    intro proc g hg
    by_cases ha : a.id ∈ proc
    · simp only [find_duplicates_go, if_pos ha] at hg
      obtain ⟨h1, h2, h3, h4⟩ := ih proc g hg
      exact ⟨List.mem_cons_of_mem a h1, h2, h3,
        fun p hp => ⟨List.mem_cons_of_mem a (h4 p hp).1, (h4 p hp).2⟩⟩
    · simp only [find_duplicates_go, if_neg ha] at hg
      by_cases hs : (collectSimilar a rest proc).1.isEmpty = true
      · rw [if_pos hs] at hg
        obtain ⟨h1, h2, h3, h4⟩ := ih (collectSimilar a rest proc).2 g hg
        have hsub := (collectSimilar_spec a rest proc).1
        exact ⟨List.mem_cons_of_mem a h1, fun hx => h2 (hsub hx), h3,
          fun p hp => ⟨List.mem_cons_of_mem a (h4 p hp).1,
            fun hx => (h4 p hp).2 (hsub hx)⟩⟩
      · rw [if_neg hs] at hg
        rcases List.mem_cons.mp hg with hge | hgm
        · subst hge
          refine ⟨List.mem_cons_self _ _, ha, ?_, ?_⟩
          · intro hnil
            rw [List.isEmpty_iff] at hs
            exact hs hnil
          · intro p hp
            obtain ⟨h1, h2, h3⟩ := (collectSimilar_spec a rest proc).2 p hp
            exact ⟨List.mem_cons_of_mem a h1, h3⟩
        · obtain ⟨h1, h2, h3, h4⟩ := ih (a.id :: (collectSimilar a rest proc).2) g hgm
          have hsub := (collectSimilar_spec a rest proc).1
          exact ⟨List.mem_cons_of_mem a h1,
            fun hx => h2 (List.mem_cons_of_mem _ (hsub hx)), h3,
            fun p hp => ⟨List.mem_cons_of_mem a (h4 p hp).1,
              fun hx => (h4 p hp).2 (List.mem_cons_of_mem _ (hsub hx))⟩⟩

/-- Distinct groups never share a member id. -/
theorem find_duplicates_go_pairwise :
    ∀ (l : List DBRecord) (proc : List Nat),
      (find_duplicates_go l proc).Pairwise
        (fun g g2 => ∀ x ∈ groupMembers g, ∀ y ∈ groupMembers g2, x.id ≠ y.id) := by
  intro l
  induction l with
  | nil => intro proc; simp [find_duplicates_go]
  | cons a rest ih =>
    intro proc
    by_cases ha : a.id ∈ proc
    · simp only [find_duplicates_go, if_pos ha]
      exact ih proc
    · simp only [find_duplicates_go, if_neg ha]
      by_cases hs : (collectSimilar a rest proc).1.isEmpty = true
      · rw [if_pos hs]
        exact ih _
      · rw [if_neg hs]
        refine List.Pairwise.cons ?_ (ih _)
        intro g2 hg2 x hx y hy
        have hmem := find_duplicates_go_mem rest (a.id :: (collectSimilar a rest proc).2) g2 hg2
        have hy_not : y.id ∉ a.id :: (collectSimilar a rest proc).2 := by
          simp only [groupMembers] at hy
          rcases List.mem_cons.mp hy with hye | hym
          · rw [hye]
            exact hmem.2.1
          · obtain ⟨p, hp, hpe⟩ := List.mem_map.mp hym
            rw [← hpe]
            exact (hmem.2.2.2 p hp).2
        simp only [groupMembers] at hx
        rcases List.mem_cons.mp hx with hxe | hxm
        · rw [hxe]
          intro heq
          exact hy_not (heq ▸ List.mem_cons_self _ _)
        · obtain ⟨p, hp, hpe⟩ := List.mem_map.mp hxm
          rw [← hpe]
          have hx2 := ((collectSimilar_spec a rest proc).2 p hp).2.1
          intro heq
          exact hy_not (List.mem_cons_of_mem _ (heq ▸ hx2))

/-- Every group's canonical occurs in the input strictly before each of
its duplicates. -/
theorem find_duplicates_go_before :
    ∀ (l : List DBRecord) (proc : List Nat),
      ∀ g ∈ find_duplicates_go l proc,
        ∃ l1 l2, l = l1 ++ g.1 :: l2 ∧ ∀ p ∈ g.2, p.1 ∈ l2 := by
  intro l
  induction l with
  | nil => intro proc g hg; simp [find_duplicates_go] at hg
  | cons a rest ih =>
    intro proc g hg
    by_cases ha : a.id ∈ proc
    · simp only [find_duplicates_go, if_pos ha] at hg
      obtain ⟨l1, l2, he, hm⟩ := ih proc g hg
      exact ⟨a :: l1, l2, by rw [he]; rfl, hm⟩
    · simp only [find_duplicates_go, if_neg ha] at hg
      by_cases hs : (collectSimilar a rest proc).1.isEmpty = true
      · rw [if_pos hs] at hg
        obtain ⟨l1, l2, he, hm⟩ := ih _ g hg
        exact ⟨a :: l1, l2, by rw [he]; rfl, hm⟩
      · rw [if_neg hs] at hg
        rcases List.mem_cons.mp hg with hge | hgm
        · subst hge
          exact ⟨[], rest, rfl, fun p hp => ((collectSimilar_spec a rest proc).2 p hp).1⟩
        · obtain ⟨l1, l2, he, hm⟩ := ih _ g hgm
          exact ⟨a :: l1, l2, by rw [he]; rfl, hm⟩

/-- C7: on a batch with pairwise distinct ids, `find_duplicates`
produces groups whose member sets are pairwise disjoint (no record
belongs to two groups), each group has exactly one canonical and at
least one duplicate, and the canonical occurs in the input strictly
before every duplicate of its group. -/
theorem find_duplicates_partition (articles : List DBRecord)
    (hnd : (articles.map DBRecord.id).Nodup) :
    (find_duplicates articles).Pairwise
      (fun g g2 => ∀ x ∈ groupMembers g, ∀ y ∈ groupMembers g2, x.id ≠ y.id)
    ∧ (∀ g ∈ find_duplicates articles, g.2 ≠ [])
    ∧ (∀ g ∈ find_duplicates articles,
        ∃ l1 l2, articles = l1 ++ g.1 :: l2 ∧ ∀ p ∈ g.2, p.1 ∈ l2) := by
  refine ⟨find_duplicates_go_pairwise articles [], ?_, ?_⟩
  · intro g hg
    exact (find_duplicates_go_mem articles [] g hg).2.2.1
  · intro g hg
    exact find_duplicates_go_before articles [] g hg

/-- C7 witness: the three-record snapshot with one url duplicate. -/
theorem find_duplicates_partition_witness :
    (c7Articles.map DBRecord.id).Nodup
    ∧ (find_duplicates c7Articles).Pairwise
        (fun g g2 => ∀ x ∈ groupMembers g, ∀ y ∈ groupMembers g2, x.id ≠ y.id)
    ∧ (∀ g ∈ find_duplicates c7Articles, g.2 ≠ [])
    ∧ (∀ g ∈ find_duplicates c7Articles,
        ∃ l1 l2, c7Articles = l1 ++ g.1 :: l2 ∧ ∀ p ∈ g.2, p.1 ∈ l2) := by
  have h := find_duplicates_partition c7Articles (by decide)
  exact ⟨by decide, h.1, h.2.1, h.2.2⟩

/-- URL facts for one page of `get_article_list`: kept urls are
pairwise distinct, none was previously seen, the seen set only grows,
and every kept url ends up seen. -/
theorem processRecords_urls (parseTime : String → Option Int) (co : Option Int) :
    ∀ (l : List RawArticle) (seen : List String),
      ((processRecords parseTime co l seen).kept.map RawArticle.url).Nodup
      ∧ (∀ u ∈ (processRecords parseTime co l seen).kept.map RawArticle.url, u ∉ seen)
      ∧ (∀ u ∈ seen, u ∈ (processRecords parseTime co l seen).seen)
      ∧ (∀ u ∈ (processRecords parseTime co l seen).kept.map RawArticle.url,
          u ∈ (processRecords parseTime co l seen).seen) := by
  intro l
  induction l with
  | nil => intro seen; simp [processRecords]
  | cons r rs ih =>
    intro seen
    by_cases h1 : r.title = "" ∨ r.url = ""
    · simpa only [processRecords, if_pos h1] using ih seen
    · by_cases h2 : r.url ∈ seen
      · simpa only [processRecords, if_neg h1, if_pos h2] using ih seen
      · by_cases h3 : isOld parseTime co r = true
        · simp only [processRecords, if_neg h1, if_neg h2, if_pos h3]
          refine ⟨by simp, by simp, ?_, by simp⟩
          intro u hu
          exact List.mem_cons_of_mem _ hu
        · simp only [processRecords, if_neg h1, if_neg h2, if_neg h3]
          obtain ⟨ih1, ih2, ih3, ih4⟩ := ih (r.url :: seen)
          refine ⟨?_, ?_, ?_, ?_⟩
          · rw [List.map_cons, List.nodup_cons]
            exact ⟨fun hmem => ih2 _ hmem (List.mem_cons_self _ _), ih1⟩
          · rw [List.map_cons]
            intro u hu
            rcases List.mem_cons.mp hu with he | hm
            · rw [he]; exact h2
            · exact fun hse => ih2 u hm (List.mem_cons_of_mem _ hse)
          · intro u hu
            exact ih3 u (List.mem_cons_of_mem _ hu)
          · rw [List.map_cons]
            intro u hu
            rcases List.mem_cons.mp hu with he | hm
            · rw [he]
              exact ih3 _ (List.mem_cons_self _ _)
            · exact ih4 u hm

/-- URL facts for the page loop: the returned article urls are pairwise
distinct across pages (the seen set threads through). -/
theorem get_article_list_go_urls (parseTime : String → Option Int) (co : Option Int) :
    ∀ (fetched : List (Option (List RawArticle))) (seen : List String),
      (((get_article_list_go parseTime co fetched seen).articles).map RawArticle.url).Nodup
      ∧ (∀ u ∈ ((get_article_list_go parseTime co fetched seen).articles).map
          RawArticle.url, u ∉ seen)
      ∧ (∀ u ∈ seen, u ∈ (get_article_list_go parseTime co fetched seen).seen)
      ∧ (∀ u ∈ ((get_article_list_go parseTime co fetched seen).articles).map
          RawArticle.url, u ∈ (get_article_list_go parseTime co fetched seen).seen) := by
  intro fetched
  induction fetched with
  | nil => intro seen; simp [get_article_list_go]
  | cons p rest ih =>
    intro seen
    cases p with
    | none =>
      simpa only [get_article_list_go] using ih seen
    | some pg =>
      obtain ⟨p1, p2, p3, p4⟩ := processRecords_urls parseTime co pg seen
      by_cases hq : (processRecords parseTime co pg seen).early = true
      · simp only [get_article_list_go, if_pos hq]
        exact ⟨p1, p2, p3, p4⟩
      · simp only [get_article_list_go, if_neg hq]
        obtain ⟨g1, g2, g3, g4⟩ := ih (processRecords parseTime co pg seen).seen
        refine ⟨?_, ?_, ?_, ?_⟩
        · rw [List.map_append, List.nodup_append]
          exact ⟨p1, g1, fun u hu hv => g2 u hv (p4 u hu)⟩
        · rw [List.map_append]
          intro u hu
          rcases List.mem_append.mp hu with hm | hm
          · exact p2 u hm
          · exact fun hse => g2 u hm (p3 u hse)
        · intro u hu
          exact g3 u (p3 u hu)
        · rw [List.map_append]
          intro u hu
          rcases List.mem_append.mp hu with hm | hm
          · exact g3 u (p4 u hm)
          · exact g4 u hm

/-- The urls of a `get_article_list` result are pairwise distinct. -/
theorem get_article_list_urls_nodup (parseTime : String → Option Int) (now : Int)
    (fetched : List (Option (List RawArticle))) (hours : Nat) :
    (((get_article_list parseTime now fetched hours).1).map RawArticle.url).Nodup :=
  (get_article_list_go_urls parseTime (mkCutoff now hours) fetched []).1

/-- Enrichment keeps each stub's url. -/
theorem map_process_article_url (pageOf : String → Option (List String))
    (stubs : List RawArticle) :
    (stubs.map (process_article pageOf)).map EnrichedArticle.url
      = stubs.map RawArticle.url := by
  induction stubs with
  | nil => rfl
  | cons a tl ih =>
    rw [List.map_cons, List.map_cons, List.map_cons, ih]
    rfl

/-- With pairwise distinct urls, the code's sort key recovers each
element's own index. -/
theorem findIdx_url_get (l : List EnrichedArticle) :
    (l.map EnrichedArticle.url).Nodup →
    ∀ (i : Fin l.length),
      l.findIdx (fun a => a.url == (l.get i).url) = i := by
  induction l with
  | nil =>
    intro _ i
    exact absurd i.2 (by simp)
  | cons a tl ih =>
    intro hnd i
    have hnotmem : a.url ∉ tl.map EnrichedArticle.url := by
      rw [List.map_cons, List.nodup_cons] at hnd
      exact hnd.1
    have hnd2 : (tl.map EnrichedArticle.url).Nodup := by
      rw [List.map_cons, List.nodup_cons] at hnd
      exact hnd.2
    match i with
    | ⟨0, h⟩ =>
      simp [List.findIdx_cons]
    | ⟨j + 1, h⟩ =>
      have hj : j < tl.length := by simpa using h
      have hne : (a.url == (tl.get ⟨j, hj⟩).url) = false := by
        rw [beq_eq_false_iff_ne]
        intro heq
        apply hnotmem
        rw [heq]
        exact List.mem_map_of_mem _ (tl.get_mem j hj)
      rw [show (a :: tl).get ⟨j + 1, h⟩ = tl.get ⟨j, hj⟩ from rfl,
        List.findIdx_cons, hne]
      have hrec : List.findIdx (fun x => x.url == tl[j].url) tl = j := ih hnd2 ⟨j, hj⟩
      simp [hrec]

/-- With pairwise distinct urls a list is strictly sorted by its own
sort keys. -/
theorem sorted_keyOf (l : List EnrichedArticle)
    (hnd : (l.map EnrichedArticle.url).Nodup) :
    l.Pairwise (fun x y => keyOf l x < keyOf l y) := by
  rw [List.pairwise_iff_get]
  intro i j hij
  have hi : keyOf l (l.get i) = i := findIdx_url_get l hnd i
  have hj : keyOf l (l.get j) = j := findIdx_url_get l hnd j
  rw [hi, hj]
  exact hij

/-- Sorting any permutation of a url-distinct list by the code's sort
key restores the original list. -/
theorem restoreOrder_eq (base completed : List EnrichedArticle)
    (hnd : (base.map EnrichedArticle.url).Nodup) (hp : completed.Perm base) :
    restoreOrder base completed = base := by
  haveI hTot : IsTotal EnrichedArticle (fun x y => keyOf base x ≤ keyOf base y) :=
    ⟨fun a b => Nat.le_total _ _⟩
  haveI hTr : IsTrans EnrichedArticle (fun x y => keyOf base x ≤ keyOf base y) :=
    ⟨fun a b c h1 h2 => le_trans h1 h2⟩
  haveI hAnti : IsAntisymm EnrichedArticle (fun x y => keyOf base x < keyOf base y) :=
    ⟨fun a b h1 h2 => absurd h2 (Nat.lt_asymm h1)⟩
  have hsorted := List.sorted_insertionSort
    (fun x y => keyOf base x ≤ keyOf base y) completed
  have hperm : (completed.insertionSort
      (fun x y => keyOf base x ≤ keyOf base y)).Perm base :=
    (List.perm_insertionSort _ completed).trans hp
  have hbase := sorted_keyOf base hnd
  have hkeys : (base.map (keyOf base)).Nodup := by
    refine List.pairwise_map.mpr ?_
    exact hbase.imp (fun h => Nat.ne_of_lt h)
  have hkeys2 : ((completed.insertionSort
      (fun x y => keyOf base x ≤ keyOf base y)).map (keyOf base)).Nodup :=
    ((hperm.map (keyOf base)).symm).nodup hkeys
  have hne : (completed.insertionSort
      (fun x y => keyOf base x ≤ keyOf base y)).Pairwise
        (fun x y => keyOf base x ≠ keyOf base y) :=
    List.pairwise_map.mp hkeys2
  have hsorted_lt : (completed.insertionSort
      (fun x y => keyOf base x ≤ keyOf base y)).Pairwise
        (fun x y => keyOf base x < keyOf base y) :=
    (hsorted.and hne).imp (fun h => lt_of_le_of_ne h.1 h.2)
  exact List.eq_of_perm_of_sorted hperm hsorted_lt hbase

/-- C3: whatever order the thread-pool futures complete in (any
permutation of the enriched stubs), the sort step of `crawl_articles`
returns the enriched articles in the original input order.  The sort
key — the index of the first article with the same url — is
well-defined here because the stub list produced by `get_article_list`
has pairwise distinct urls (the in-run URL dedup). -/
theorem crawl_articles_order_restored (parseTime : String → Option Int) (now : Int)
    (fetched : List (Option (List RawArticle))) (hours : Nat)
    (pageOf : String → Option (List String)) (completed : List EnrichedArticle)
    (hp : completed.Perm
      (((get_article_list parseTime now fetched hours).1).map (process_article pageOf))) :
    restoreOrder
        (((get_article_list parseTime now fetched hours).1).map (process_article pageOf))
        completed
      = ((get_article_list parseTime now fetched hours).1).map (process_article pageOf)
    ∧ ((((get_article_list parseTime now fetched hours).1).map
        (process_article pageOf)).map EnrichedArticle.url).Nodup := by
  have hen : ((((get_article_list parseTime now fetched hours).1).map
      (process_article pageOf)).map EnrichedArticle.url).Nodup := by
    rw [map_process_article_url]
    exact get_article_list_urls_nodup parseTime now fetched hours
  exact ⟨restoreOrder_eq _ _ hen hp, hen⟩

/-- C3 witness: a two-stub run whose workers complete in reverse order
is restored to input order. -/
theorem crawl_articles_order_restored_witness :
    (([⟨"B", "ub", none, "", 0, false⟩, ⟨"A", "ua", none, "", 0, false⟩]
        : List EnrichedArticle).Perm
      (((get_article_list (fun _ => none) 0
          [some [⟨"A", "ua", none⟩, ⟨"B", "ub", none⟩]] 0).1).map
        (process_article (fun _ => none))))
    ∧ restoreOrder
        (((get_article_list (fun _ => none) 0
            [some [⟨"A", "ua", none⟩, ⟨"B", "ub", none⟩]] 0).1).map
          (process_article (fun _ => none)))
        [⟨"B", "ub", none, "", 0, false⟩, ⟨"A", "ua", none, "", 0, false⟩]
      = ((get_article_list (fun _ => none) 0
          [some [⟨"A", "ua", none⟩, ⟨"B", "ub", none⟩]] 0).1).map
          (process_article (fun _ => none)) := by
  have hperm : (([⟨"B", "ub", none, "", 0, false⟩, ⟨"A", "ua", none, "", 0, false⟩]
      : List EnrichedArticle).Perm
      (((get_article_list (fun _ => none) 0
          [some [⟨"A", "ua", none⟩, ⟨"B", "ub", none⟩]] 0).1).map
        (process_article (fun _ => none)))) :=
    List.Perm.swap _ _ _
  exact ⟨hperm, (crawl_articles_order_restored (fun _ => none) 0
    [some [⟨"A", "ua", none⟩, ⟨"B", "ub", none⟩]] 0 (fun _ => none) _ hperm).1⟩
